import Mathlib

/-!
Verification of the Slotly scheduling repository.

The repository's own availability computation is delegated to an external
backend that is not part of the source tree; the spec (sections 2-8)
describes that algorithm in full.  We therefore model the availability
core from the spec's words, and embed the in-repo code (route middleware,
the sign-in domain check, the form validators) directly from the source.

Time is measured in whole minutes in the single canonical time zone the
spec requires, as a natural number counted from a canonical epoch that
falls on a Monday at 00:00, so that day `d` of a timestamp `t` is
`t / 1440` and day 0, 7, 14, ... are Mondays.
-/

namespace Slotly

/-- Modelled from the spec: a `TimeInterval` is a pair of instants
(`start`, `end`); `end` is spelled `stop` because `end` is reserved.
Instants are minutes in the canonical zone. -/
structure TimeInterval where
  start : Nat
  stop : Nat
deriving DecidableEq, Repr

/-- The instant `t` lies inside the half-open interval `i`. -/
def covers (i : TimeInterval) (t : Nat) : Prop :=
  i.start ≤ t ∧ t < i.stop

instance (i : TimeInterval) (t : Nat) : Decidable (covers i t) :=
  inferInstanceAs (Decidable (i.start ≤ t ∧ t < i.stop))

/-- Some interval of the list covers the instant `t`. -/
def coversAny (l : List TimeInterval) (t : Nat) : Prop :=
  ∃ i ∈ l, covers i t

instance (l : List TimeInterval) (t : Nat) : Decidable (coversAny l t) :=
  inferInstanceAs (Decidable (∃ i ∈ l, covers i t))

/-- Modelled from the spec (4.1): the sort order of the aggregator,
"sort by start ascending (tie-break: shorter interval first)". -/
def intervalLE (a b : TimeInterval) : Prop :=
  a.start < b.start ∨ (a.start = b.start ∧ a.stop ≤ b.stop)

instance : DecidableRel intervalLE := fun a b =>
  inferInstanceAs (Decidable (a.start < b.start ∨ (a.start = b.start ∧ a.stop ≤ b.stop)))

instance : IsTotal TimeInterval intervalLE :=
  ⟨fun a b => by unfold intervalLE; omega⟩

instance : IsTrans TimeInterval intervalLE :=
  ⟨fun a b c => by unfold intervalLE; omega⟩

/-- Modelled from the spec (4.1): sorting the collected busy intervals by
start ascending, shorter first on ties. -/
def sortByStart (l : List TimeInterval) : List TimeInterval :=
  List.insertionSort intervalLE l

/-- Modelled from the spec (4.1): the standard interval-merge loop.
`cur` is the merged interval under construction; a next interval that
starts at or before `cur.stop` (overlapping or touching) extends it to
`max cur.stop next.stop`, otherwise `cur` is emitted and a new merged
interval starts. -/
def mergeGo (cur : TimeInterval) : List TimeInterval → List TimeInterval
  | [] => [cur]
  | next :: rest =>
    if next.start ≤ cur.stop then
      mergeGo ⟨cur.start, max cur.stop next.stop⟩ rest
    else
      cur :: mergeGo next rest

/-- Modelled from the spec (4.1): merge a start-sorted interval list into
a minimal disjoint cover. -/
def mergeIntervals : List TimeInterval → List TimeInterval
  | [] => []
  | i :: rest => mergeGo i rest

/-- Modelled from the spec (4.1): the busy-interval aggregator.  All
participants' busy intervals are collected into one sequence, zero-length
intervals are dropped (carrying no blocking information), the rest are
sorted and merged into a disjoint ascending cover. -/
def aggregateBusy (calendars : List (List TimeInterval)) : List TimeInterval :=
  mergeIntervals (sortByStart (calendars.flatten.filter (fun i => i.start != i.stop)))

/-- Minutes in one calendar day. -/
def minutesPerDay : Nat := 1440

/-- Modelled from the spec (4.2): start-of-day hour policy constant
(the 08:00 of the working window, matching the form's default start). -/
def dayStartMinute : Nat := 8 * 60

/-- Modelled from the spec (4.2): end-of-day hour policy constant
(the 17:00 of the working window, matching the form's default end). -/
def dayEndMinute : Nat := 17 * 60

/-- Modelled from the spec (4.2): valid weekdays are Monday-Friday.  With
the canonical epoch on a Monday, day `d` is a weekday when `d % 7 < 5`.
This matches the form's date picker, which filters out `getDay() == 0`
(Sunday) and `getDay() == 6` (Saturday). -/
def isWeekday (day : Nat) : Bool :=
  day % 7 < 5

/-- Modelled from the spec (4.2): the working window contributed by
calendar day `day`, clipped to the requested range; a weekend day or a
day whose clipped window would be empty contributes nothing. -/
def windowForDay (range : TimeInterval) (day : Nat) : Option TimeInterval :=
  if isWeekday day then
    if max (day * minutesPerDay + dayStartMinute) range.start <
        min (day * minutesPerDay + dayEndMinute) range.stop then
      some ⟨max (day * minutesPerDay + dayStartMinute) range.start,
        min (day * minutesPerDay + dayEndMinute) range.stop⟩
    else none
  else none

/-- Modelled from the spec (4.2): the working-window generator.  It
iterates every calendar date from the range's start date to its end date
inclusive and keeps the nonempty clipped weekday windows. -/
def workingWindows (range : TimeInterval) : List TimeInterval :=
  let firstDay := range.start / minutesPerDay
  let lastDay := range.stop / minutesPerDay
  (List.range' firstDay (lastDay + 1 - firstDay)).filterMap (windowForDay range)

/-- Modelled from the spec (4.3): single-pass subtraction of a sorted
busy list from the span `[c, stop)`, carrying the cursor `c` through the
window.  The free gap before the next busy interval (clipped to the
window) is emitted, and the cursor advances past that busy interval. -/
def subtractGo (c stop : Nat) : List TimeInterval → List TimeInterval
  | [] => if c < stop then [⟨c, stop⟩] else []
  | b :: rest =>
    (if c < min b.start stop then [(⟨c, min b.start stop⟩ : TimeInterval)] else [])
      ++ subtractGo (max c b.stop) stop rest

/-- Modelled from the spec (4.3): the free sub-intervals of one working
window after subtracting every busy interval overlapping it. -/
def subtractBusy (w : TimeInterval) (busy : List TimeInterval) : List TimeInterval :=
  subtractGo w.start w.stop busy

/-- Modelled from the spec (4.3): slice a free sub-interval into
consecutive candidate slots of exactly `dur` minutes starting at the
sub-interval's start and advancing by `dur`; the emitted count is the
largest `n` with `n * dur ≤ length`, so a remainder shorter than `dur`
is discarded. -/
def sliceInterval (iv : TimeInterval) (dur : Nat) : List TimeInterval :=
  (List.range ((iv.stop - iv.start) / dur)).map fun k =>
    ⟨iv.start + k * dur, iv.start + (k + 1) * dur⟩

/-- Modelled from the spec (4.3): the free-slot extractor over all
working windows, in range order. -/
def extractSlots (windows busy : List TimeInterval) (dur : Nat) : List TimeInterval :=
  windows.flatMap fun w => (subtractBusy w busy).flatMap fun f => sliceInterval f dur

/-- Modelled from the spec (4.1, 6, 7): a busy interval as received from
the calendar provider; `none` stands for a timestamp that failed to
parse. -/
structure RawInterval where
  start : Option Nat
  stop : Option Nat
deriving DecidableEq, Repr

/-- A raw interval is malformed when a timestamp is unparsable or its end
is before its start (spec 7; a zero-length interval is not malformed,
spec 4.1 drops it silently). -/
def malformedRaw (r : RawInterval) : Prop :=
  match r.start, r.stop with
  | some a, some b => b < a
  | _, _ => True

instance (r : RawInterval) : Decidable (malformedRaw r) :=
  match r with
  | ⟨some a, some b⟩ => inferInstanceAs (Decidable (b < a))
  | ⟨some _, none⟩ => inferInstanceAs (Decidable True)
  | ⟨none, _⟩ => inferInstanceAs (Decidable True)

/-- Parse a raw interval, refusing malformed ones. -/
def parseRaw (r : RawInterval) : Option TimeInterval :=
  match r.start, r.stop with
  | some a, some b => if b < a then none else some ⟨a, b⟩
  | _, _ => none

/-- A raw interval that parsed to a zero-length interval. -/
def isZeroLenRaw (r : RawInterval) : Bool :=
  match r.start, r.stop with
  | some a, some b => a == b
  | _, _ => false

/-- Modelled from the spec (3): a participant's identity and received
busy intervals. -/
structure ParticipantCalendar where
  identity : String
  busy : List RawInterval
deriving DecidableEq, Repr

/-- Modelled from the spec (3): an availability request. -/
structure AvailabilityRequest where
  participants : List ParticipantCalendar
  range : TimeInterval
  duration : Nat
deriving DecidableEq, Repr

/-- Modelled from the spec (7): the error taxonomy of the computation. -/
inductive SchedulingError where
  | invalidDuration : SchedulingError
  | invalidInterval : String → Nat → SchedulingError
deriving DecidableEq, Repr

/-- Modelled from the spec (7): validate one participant's busy list,
failing fast on the first malformed interval (unparsable timestamp or
end before start, exactly when `parseRaw` refuses it) with the
participant's identity and the interval's index. -/
def validateBusy (pid : String) : List RawInterval → Nat → Except SchedulingError (List TimeInterval)
  | [], _ => .ok []
  | r :: rest, idx =>
    match parseRaw r with
    | some t =>
      match validateBusy pid rest (idx + 1) with
      | .ok ts => .ok (t :: ts)
      | .error e => .error e
    | none => .error (.invalidInterval pid idx)

/-- Modelled from the spec (7): validate every participant before any
merge or subtract work begins. -/
def validateAll : List ParticipantCalendar → Except SchedulingError (List (List TimeInterval))
  | [] => .ok []
  | p :: rest =>
    match validateBusy p.identity p.busy 0 with
    | .ok l =>
      match validateAll rest with
      | .ok ls => .ok (l :: ls)
      | .error e => .error e
    | .error e => .error e

/-- Modelled from the spec (2, 4, 7): the whole availability resolution
pipeline.  The duration is a count of minutes, so the spec's "duration
≤ 0" check is the `= 0` check here; validation runs before the three
stages, and either all three stages run or the request fails. -/
def computeAvailability (req : AvailabilityRequest) : Except SchedulingError (List TimeInterval) :=
  if req.duration = 0 then .error .invalidDuration
  else
    match validateAll req.participants with
    | .ok calendars =>
      .ok (extractSlots (workingWindows req.range) (aggregateBusy calendars) req.duration)
    | .error e => .error e

/-- The same request with every zero-length busy interval removed. -/
def dropZeroRequest (req : AvailabilityRequest) : AvailabilityRequest :=
  ⟨req.participants.map (fun p => ⟨p.identity, p.busy.filter (fun r => !isZeroLenRaw r)⟩),
    req.range, req.duration⟩

/-- JavaScript's `String.prototype.split` with a one-character separator,
over the string's characters: the list of fields between occurrences of
the separator.  On the empty string it returns one empty field, so the
result always has at least one element. -/
def jsSplitChar (sep : Char) : List Char → List (List Char)
  | [] => [[]]
  | c :: rest =>
    match jsSplitChar sep rest with
    | [] => [[]]
    | f :: r => if c = sep then [] :: f :: r else (c :: f) :: r

/-- JavaScript's `String.prototype.trim`: strip leading and trailing
whitespace. -/
def jsTrim (s : List Char) : List Char :=
  ((s.dropWhile Char.isWhitespace).reverse.dropWhile Char.isWhitespace).reverse

/-- From src/app/components/SchedulingForm.tsx (line 81): the test of the
regular expression `^[^\s@]+@[^\s@]+\.[^\s@]+$`.  A string matches
exactly when it splits on `@` into two fields (so it has exactly one
`@`), the first field is nonempty, no character is whitespace, and the
second field has a dot that is neither its first nor its last
character. -/
def emailRegexTest (s : List Char) : Bool :=
  match jsSplitChar '@' s with
  | [a, b] =>
    !a.isEmpty && a.all (fun c => !c.isWhitespace) && b.all (fun c => !c.isWhitespace) &&
      (List.range b.length).any (fun i => decide (0 < i) && decide (i + 1 < b.length) && b.getD i ' ' == '.')
  | _ => false

/-- Outcome of a react-hook-form field validator: `true`, or an error
message string. -/
inductive ValidationResult where
  | ok : ValidationResult
  | err : String → ValidationResult
deriving DecidableEq, Repr

/-- From src/app/components/SchedulingForm.tsx (lines 74-90): the
`validateEmails` validator.  It splits the input on commas, trims each
entry, reports a missing-participants message if the array is empty, and
otherwise reports the first entry failing the email regular
expression. -/
def validateEmails (value : String) : ValidationResult :=
  if ((jsSplitChar ',' value.toList).map jsTrim).length = 0 then
    .err "At least one participant email is required"
  else
    match ((jsSplitChar ',' value.toList).map jsTrim).find? (fun e => !emailRegexTest e) with
    | some e => .err ("\"" ++ String.mk e ++ "\" is not a valid email address")
    | none => .ok

/-- From src/app/components/SchedulingForm.tsx (lines 285-293): the
duration field is registered as required with `min` 15 ("Duration must
be at least 15 minutes") and `max` 480 ("Duration must be at most 8
hours (480 minutes)"); a value inside the bounds validates. -/
def durationFieldError (d : Int) : Option String :=
  if d < 15 then some "Duration must be at least 15 minutes"
  else if 480 < d then some "Duration must be at most 8 hours (480 minutes)"
  else none

/-- The result of the middleware: pass the request through, or redirect
to a target path. -/
inductive MiddlewareResult where
  | next : MiddlewareResult
  | redirect : String → MiddlewareResult
deriving DecidableEq, Repr

/-- From src/middleware.ts (lines 25-28): the public paths. -/
def publicPaths : List String :=
  ["/auth/signin", "/auth/error"]

/-- From src/middleware.ts (lines 16-54): the middleware decision as a
function of the request path and whether a session token is present.
NextAuth API paths pass through; otherwise unauthenticated requests to
non-public paths redirect to the sign-in page, authenticated requests to
public paths redirect to the home page, and everything else passes. -/
def middleware (path : String) (hasToken : Bool) : MiddlewareResult :=
  if path.startsWith "/api/auth" then .next
  else
    let isPublicPath := publicPaths.any (fun publicPath => path.startsWith publicPath || path == publicPath)
    if !isPublicPath && !hasToken then .redirect "/auth/signin"
    else if isPublicPath && hasToken then .redirect "/"
    else .next

/-- The middleware behaviour as the claim words it: '/api/auth' paths
always pass; otherwise a non-public path with no token redirects to
'/auth/signin'; a public path (one of '/auth/signin', '/auth/error', or
a path starting with one of them) with a token redirects to '/'; all
remaining requests pass through unchanged. -/
def middlewareClaim (path : String) (hasToken : Bool) : MiddlewareResult :=
  if path.startsWith "/api/auth" then .next
  else
    let isPublic := path == "/auth/signin" || path == "/auth/error" ||
      path.startsWith "/auth/signin" || path.startsWith "/auth/error"
    if !isPublic && !hasToken then .redirect "/auth/signin"
    else if isPublic && hasToken then .redirect "/"
    else .next

/-- From src/server.js (lines 109-111): the allowed e-mail domains: the
ALLOWED_EMAIL_DOMAINS environment variable split on commas when it is
set and nonempty (the empty string is falsy in JavaScript), otherwise
the default list ["teamodea.com"]. -/
def allowedDomainsOf (env : Option String) : List String :=
  match env with
  | some s => if s = "" then ["teamodea.com"] else (jsSplitChar ',' s.toList).map String.mk
  | none => ["teamodea.com"]

/-- From src/server.js (lines 105-124): the signIn callback.  A user
with a falsy (absent or empty) email is rejected; the wildcard "*" in
the allowed-domains list accepts everyone else; otherwise
`email.split("@")[1]` must be a member of the allowed-domains list,
where a missing index 1 (no `@` in the email) is `undefined` and never a
member. -/
def signInCallback (email : Option String) (env : Option String) : Bool :=
  match email with
  | none => false
  | some e =>
    if e = "" then false
    else
      let allowedDomains := allowedDomainsOf env
      if allowedDomains.contains "*" then true
      else
        match (jsSplitChar '@' e.toList).drop 1 with
        | [] => false
        | d :: _ => allowedDomains.contains (String.mk d)

/-- The characters of a string up to (excluding) the first '@'. -/
def untilAt (l : List Char) : List Char :=
  l.takeWhile (fun c => !(c == '@'))

/-- The characters of a string from (including) the first '@'; empty
when the string has no '@'. -/
def fromFirstAt (l : List Char) : List Char :=
  l.dropWhile (fun c => !(c == '@'))

/-- The sign-in rule as the claim words it: accept exactly when the user
has an email and either the allowed-domains list contains "*" or the
substring of the email after the first '@' is a member of the list; a
user with no email or with no '@' in the email is rejected. -/
def signInClaimed (email : Option String) (env : Option String) : Bool :=
  match email with
  | none => false
  | some e =>
    if e = "" then false
    else
      (allowedDomainsOf env).contains "*" ||
        (match fromFirstAt e.toList with
         | [] => false
         | _ :: rest => (allowedDomainsOf env).contains (String.mk rest))

/-- The amended sign-in rule: the domain compared against the list is
`split("@")[1]`, the segment of the email strictly between the first and
the second '@' (the whole remainder when there is no second '@'). -/
def signInAmended (email : Option String) (env : Option String) : Bool :=
  match email with
  | none => false
  | some e =>
    if e = "" then false
    else
      (allowedDomainsOf env).contains "*" ||
        (match fromFirstAt e.toList with
         | [] => false
         | _ :: rest => (allowedDomainsOf env).contains (String.mk (untilAt rest)))

example : computeAvailability ⟨[], ⟨0, 1440⟩, 60⟩ =
    .ok [⟨480, 540⟩, ⟨540, 600⟩, ⟨600, 660⟩, ⟨660, 720⟩, ⟨720, 780⟩,
         ⟨780, 840⟩, ⟨840, 900⟩, ⟨900, 960⟩, ⟨960, 1020⟩] := rfl

/-! Lemmas about the busy-interval aggregator. -/

theorem sortByStart_pairwise (l : List TimeInterval) :
    (sortByStart l).Pairwise (fun a b => a.start ≤ b.start) :=
  List.Pairwise.imp (fun h => by unfold intervalLE at h; omega)
    (List.sorted_insertionSort intervalLE l)

theorem sortByStart_perm (l : List TimeInterval) : (sortByStart l).Perm l :=
  List.perm_insertionSort intervalLE l

theorem mergeGo_start_le (cur : TimeInterval) (l : List TimeInterval)
    (h : (cur :: l).Pairwise (fun a b => a.start ≤ b.start)) :
    ∀ j ∈ mergeGo cur l, cur.start ≤ j.start := by
  induction l generalizing cur with
  | nil =>
    intro j hj
    simp only [mergeGo, List.mem_singleton] at hj
    subst hj
    exact le_refl _
  | cons next rest ih =>
    intro j hj
    rw [List.pairwise_cons] at h
    obtain ⟨hcur, hrest⟩ := h
    unfold mergeGo at hj
    by_cases hle : next.start ≤ cur.stop
    · simp only [if_pos hle] at hj
      have hp : ((⟨cur.start, max cur.stop next.stop⟩ : TimeInterval) :: rest).Pairwise
          (fun a b => a.start ≤ b.start) := by
        rw [List.pairwise_cons]
        refine ⟨fun i hi => ?_, hrest.sublist (List.sublist_cons_self next rest)⟩
        exact hcur i (List.mem_cons_of_mem next hi)
      exact ih _ hp j hj
    · simp only [if_neg hle] at hj
      rcases List.mem_cons.mp hj with hj | hj
      · subst hj
        exact le_refl _
      · have := ih next hrest j hj
        have := hcur next (List.mem_cons_self next rest)
        omega

theorem mergeGo_pairwise (cur : TimeInterval) (l : List TimeInterval)
    (h : (cur :: l).Pairwise (fun a b => a.start ≤ b.start)) :
    (mergeGo cur l).Pairwise (fun a b => a.stop < b.start) := by
  induction l generalizing cur with
  | nil => simp [mergeGo]
  | cons next rest ih =>
    rw [List.pairwise_cons] at h
    obtain ⟨hcur, hrest⟩ := h
    unfold mergeGo
    by_cases hle : next.start ≤ cur.stop
    · simp only [if_pos hle]
      refine ih _ ?_
      rw [List.pairwise_cons]
      refine ⟨fun i hi => ?_, hrest.sublist (List.sublist_cons_self next rest)⟩
      exact hcur i (List.mem_cons_of_mem next hi)
    · simp only [if_neg hle]
      rw [List.pairwise_cons]
      refine ⟨fun j hj => ?_, ih next hrest⟩
      have := mergeGo_start_le next rest hrest j hj
      omega

theorem mergeGo_wf (cur : TimeInterval) (l : List TimeInterval)
    (hc : cur.start < cur.stop) (hl : ∀ i ∈ l, i.start < i.stop) :
    ∀ j ∈ mergeGo cur l, j.start < j.stop := by
  induction l generalizing cur with
  | nil =>
    intro j hj
    simp only [mergeGo, List.mem_singleton] at hj
    subst hj
    exact hc
  | cons next rest ih =>
    intro j hj
    unfold mergeGo at hj
    by_cases hle : next.start ≤ cur.stop
    · simp only [if_pos hle] at hj
      refine ih ⟨cur.start, max cur.stop next.stop⟩ (by simp; omega)
        (fun i hi => hl i (List.mem_cons_of_mem next hi)) j hj
    · simp only [if_neg hle] at hj
      rcases List.mem_cons.mp hj with hj | hj
      · subst hj
        exact hc
      · exact ih next (hl next (List.mem_cons_self next rest))
          (fun i hi => hl i (List.mem_cons_of_mem next hi)) j hj

theorem coversAny_cons (i : TimeInterval) (l : List TimeInterval) (t : Nat) :
    coversAny (i :: l) t ↔ covers i t ∨ coversAny l t := by
  unfold coversAny
  simp [List.mem_cons, or_and_right, exists_or]

theorem mergeGo_covers (cur : TimeInterval) (l : List TimeInterval)
    (h : (cur :: l).Pairwise (fun a b => a.start ≤ b.start)) (t : Nat) :
    coversAny (mergeGo cur l) t ↔ covers cur t ∨ coversAny l t := by
  induction l generalizing cur with
  | nil =>
    simp [mergeGo, coversAny_cons, coversAny]
  | cons next rest ih =>
    rw [List.pairwise_cons] at h
    obtain ⟨hcur, hrest⟩ := h
    have hcn : cur.start ≤ next.start := hcur next (List.mem_cons_self next rest)
    unfold mergeGo
    by_cases hle : next.start ≤ cur.stop
    · simp only [if_pos hle]
      have hp : ((⟨cur.start, max cur.stop next.stop⟩ : TimeInterval) :: rest).Pairwise
          (fun a b => a.start ≤ b.start) := by
        rw [List.pairwise_cons]
        refine ⟨fun i hi => ?_, hrest.sublist (List.sublist_cons_self next rest)⟩
        exact hcur i (List.mem_cons_of_mem next hi)
      rw [ih _ hp, coversAny_cons]
      have : covers ⟨cur.start, max cur.stop next.stop⟩ t ↔ covers cur t ∨ covers next t := by
        unfold covers
        simp only []
        omega
      rw [this, or_assoc]
    · simp only [if_neg hle]
      rw [coversAny_cons, ih next hrest, coversAny_cons]

theorem mergeIntervals_pairwise (l : List TimeInterval)
    (h : l.Pairwise (fun a b => a.start ≤ b.start)) :
    (mergeIntervals l).Pairwise (fun a b => a.stop < b.start) := by
  cases l with
  | nil => simp [mergeIntervals]
  | cons i rest => exact mergeGo_pairwise i rest h

theorem mergeIntervals_covers (l : List TimeInterval)
    (h : l.Pairwise (fun a b => a.start ≤ b.start)) (t : Nat) :
    coversAny (mergeIntervals l) t ↔ coversAny l t := by
  cases l with
  | nil => simp [mergeIntervals]
  | cons i rest => rw [mergeIntervals, mergeGo_covers i rest h t, coversAny_cons]

theorem mergeIntervals_wf (l : List TimeInterval) (h : ∀ i ∈ l, i.start < i.stop) :
    ∀ j ∈ mergeIntervals l, j.start < j.stop := by
  cases l with
  | nil => simp [mergeIntervals]
  | cons i rest =>
    exact mergeGo_wf i rest (h i (List.mem_cons_self i rest))
      (fun j hj => h j (List.mem_cons_of_mem i hj))

theorem coversAny_perm {l l' : List TimeInterval} (h : l.Perm l') (t : Nat) :
    coversAny l t ↔ coversAny l' t := by
  unfold coversAny
  constructor
  · rintro ⟨i, hi, hc⟩
    exact ⟨i, h.mem_iff.mp hi, hc⟩
  · rintro ⟨i, hi, hc⟩
    exact ⟨i, h.mem_iff.mpr hi, hc⟩

theorem coversAny_filter_nonzero (l : List TimeInterval) (t : Nat) :
    coversAny (l.filter (fun i => i.start != i.stop)) t ↔ coversAny l t := by
  unfold coversAny
  constructor
  · rintro ⟨i, hi, hc⟩
    exact ⟨i, (List.mem_filter.mp hi).1, hc⟩
  · rintro ⟨i, hi, hc⟩
    refine ⟨i, List.mem_filter.mpr ⟨hi, ?_⟩, hc⟩
    unfold covers at hc
    simp only [bne_iff_ne, ne_eq, decide_eq_true_eq]
    omega

theorem aggregateBusy_pairwise (cals : List (List TimeInterval)) :
    (aggregateBusy cals).Pairwise (fun a b => a.stop < b.start) :=
  mergeIntervals_pairwise _ (sortByStart_pairwise _)

theorem aggregateBusy_covers (cals : List (List TimeInterval)) (t : Nat) :
    coversAny (aggregateBusy cals) t ↔ ∃ l ∈ cals, coversAny l t := by
  unfold aggregateBusy
  rw [mergeIntervals_covers _ (sortByStart_pairwise _) t,
    coversAny_perm (sortByStart_perm _) t, coversAny_filter_nonzero]
  unfold coversAny
  constructor
  · rintro ⟨i, hi, hc⟩
    obtain ⟨l, hl, hil⟩ := List.mem_flatten.mp hi
    exact ⟨l, hl, i, hil, hc⟩
  · rintro ⟨l, hl, i, hil, hc⟩
    exact ⟨i, List.mem_flatten.mpr ⟨l, hl, hil⟩, hc⟩

theorem aggregateBusy_wf (cals : List (List TimeInterval))
    (h : ∀ i ∈ cals.flatten, i.start ≤ i.stop) :
    ∀ j ∈ aggregateBusy cals, j.start < j.stop := by
  refine mergeIntervals_wf _ (fun i hi => ?_)
  have hi' : i ∈ cals.flatten.filter (fun i => i.start != i.stop) :=
    (sortByStart_perm _).mem_iff.mp hi
  obtain ⟨him, hne⟩ := List.mem_filter.mp hi'
  have := h i him
  simp only [bne_iff_ne, ne_eq, decide_eq_true_eq] at hne
  omega

theorem mergeGo_start_pairwise (cur : TimeInterval) (l : List TimeInterval)
    (h : (cur :: l).Pairwise (fun a b => a.start ≤ b.start)) :
    (mergeGo cur l).Pairwise (fun a b => a.start ≤ b.start) := by
  induction l generalizing cur with
  | nil => simp [mergeGo]
  | cons next rest ih =>
    rw [List.pairwise_cons] at h
    obtain ⟨hcur, hrest⟩ := h
    unfold mergeGo
    by_cases hle : next.start ≤ cur.stop
    · simp only [if_pos hle]
      refine ih _ ?_
      rw [List.pairwise_cons]
      refine ⟨fun i hi => ?_, hrest.sublist (List.sublist_cons_self next rest)⟩
      exact hcur i (List.mem_cons_of_mem next hi)
    · simp only [if_neg hle]
      rw [List.pairwise_cons]
      refine ⟨fun j hj => ?_, ih next hrest⟩
      have := mergeGo_start_le next rest hrest j hj
      have := hcur next (List.mem_cons_self next rest)
      omega

theorem aggregateBusy_sorted_starts (cals : List (List TimeInterval)) :
    (aggregateBusy cals).Pairwise (fun a b => a.start ≤ b.start) := by
  unfold aggregateBusy
  cases h : sortByStart (cals.flatten.filter (fun i => i.start != i.stop)) with
  | nil => simp [mergeIntervals]
  | cons i rest =>
    have hp := sortByStart_pairwise (cals.flatten.filter (fun i => i.start != i.stop))
    rw [h] at hp
    exact mergeGo_start_pairwise i rest hp

/-! Lemmas about the working-window generator. -/

theorem mem_workingWindows {range w : TimeInterval} (hw : w ∈ workingWindows range) :
    ∃ d, isWeekday d = true ∧
      w.start = max (d * minutesPerDay + dayStartMinute) range.start ∧
      w.stop = min (d * minutesPerDay + dayEndMinute) range.stop ∧
      w.start < w.stop := by
  unfold workingWindows at hw
  obtain ⟨d, _, hd⟩ := List.mem_filterMap.mp hw
  unfold windowForDay at hd
  split at hd
  case isTrue hwk =>
    split at hd
    case isTrue hne =>
      rw [Option.some.injEq] at hd
      subst hd
      exact ⟨d, hwk, rfl, rfl, hne⟩
    case isFalse hne => exact absurd hd (by simp)
  case isFalse hwk => exact absurd hd (by simp)

theorem workingWindows_pairwise (range : TimeInterval) :
    (workingWindows range).Pairwise (fun a b => a.stop < b.start) := by
  unfold workingWindows
  refine List.Pairwise.filterMap (windowForDay range) (fun d d' hdd w hw w' hw' => ?_)
    (List.pairwise_lt_range' _ _ 1 Nat.one_pos)
  rw [Option.mem_def] at hw hw'
  unfold windowForDay at hw hw'
  split at hw
  case isTrue =>
    split at hw
    case isTrue =>
      rw [Option.some.injEq] at hw
      subst hw
      split at hw'
      case isTrue =>
        split at hw'
        case isTrue =>
          rw [Option.some.injEq] at hw'
          subst hw'
          simp only [minutesPerDay, dayStartMinute, dayEndMinute] at *
          omega
        case isFalse => exact absurd hw' (by simp)
      case isFalse => exact absurd hw' (by simp)
    case isFalse => exact absurd hw (by simp)
  case isFalse => exact absurd hw (by simp)

theorem workingWindows_subset_range {range w : TimeInterval} (hw : w ∈ workingWindows range) :
    range.start ≤ w.start ∧ w.stop ≤ range.stop := by
  obtain ⟨d, _, hs, he, _⟩ := mem_workingWindows hw
  omega

/-! Lemmas about the free-slot extractor. -/

theorem subtractGo_mem_bounds (c stop : Nat) (busy : List TimeInterval) :
    ∀ f ∈ subtractGo c stop busy, c ≤ f.start ∧ f.start < f.stop ∧ f.stop ≤ stop := by
  induction busy generalizing c with
  | nil =>
    intro f hf
    unfold subtractGo at hf
    by_cases hc : c < stop
    · simp only [if_pos hc, List.mem_singleton] at hf
      subst hf
      exact ⟨le_refl _, hc, le_refl _⟩
    · simp [if_neg hc] at hf
  | cons b rest ih =>
    intro f hf
    unfold subtractGo at hf
    rcases List.mem_append.mp hf with hf | hf
    · by_cases hc : c < min b.start stop
      · rw [if_pos hc, List.mem_singleton] at hf
        subst hf
        simp only []
        omega
      · rw [if_neg hc] at hf
        exact absurd hf (List.not_mem_nil f)
    · have := ih (max c b.stop) f hf
      omega

theorem subtractGo_pairwise (c stop : Nat) (busy : List TimeInterval)
    (hwf : ∀ b ∈ busy, b.start ≤ b.stop) :
    (subtractGo c stop busy).Pairwise (fun a b => a.stop ≤ b.start) := by
  induction busy generalizing c with
  | nil =>
    unfold subtractGo
    by_cases hc : c < stop <;> simp [hc]
  | cons b rest ih =>
    unfold subtractGo
    rw [List.pairwise_append]
    have hb := hwf b (List.mem_cons_self b rest)
    refine ⟨?_, ih (max c b.stop) (fun x hx => hwf x (List.mem_cons_of_mem b hx)), ?_⟩
    · by_cases hc : c < min b.start stop <;> simp [hc]
    · intro x hx y hy
      by_cases hc : c < min b.start stop
      · rw [if_pos hc, List.mem_singleton] at hx
        subst hx
        have := subtractGo_mem_bounds (max c b.stop) stop rest y hy
        simp only []
        omega
      · rw [if_neg hc] at hx
        exact absurd hx (List.not_mem_nil x)

theorem subtractGo_free (c stop : Nat) (busy : List TimeInterval)
    (hsort : busy.Pairwise (fun a b => a.start ≤ b.start)) :
    ∀ f ∈ subtractGo c stop busy, ∀ t, f.start ≤ t → t < f.stop →
      ∀ b ∈ busy, ¬ covers b t := by
  induction busy generalizing c with
  | nil =>
    intro f _ t _ _ b hb
    simp at hb
  | cons b rest ih =>
    rw [List.pairwise_cons] at hsort
    obtain ⟨hb, hrest⟩ := hsort
    intro f hf t hts htl b' hb'
    unfold subtractGo at hf
    rcases List.mem_append.mp hf with hf | hf
    · by_cases hc : c < min b.start stop
      · rw [if_pos hc, List.mem_singleton] at hf
        subst hf
        simp only [] at hts htl
        rcases List.mem_cons.mp hb' with hb' | hb'
        · rw [hb']
          unfold covers
          omega
        · have := hb b' hb'
          unfold covers
          omega
      · rw [if_neg hc] at hf
        exact absurd hf (List.not_mem_nil f)
    · rcases List.mem_cons.mp hb' with hb' | hb'
      · rw [hb']
        have := subtractGo_mem_bounds (max c b.stop) stop rest f hf
        unfold covers
        omega
      · exact ih (max c b.stop) hrest f hf t hts htl b' hb'


theorem sliceInterval_mem {iv : TimeInterval} {dur : Nat} {s : TimeInterval}
    (hs : s ∈ sliceInterval iv dur) :
    ∃ k, k < (iv.stop - iv.start) / dur ∧
      s = ⟨iv.start + k * dur, iv.start + (k + 1) * dur⟩ := by
  unfold sliceInterval at hs
  obtain ⟨k, hk, hks⟩ := List.mem_map.mp hs
  exact ⟨k, List.mem_range.mp hk, hks.symm⟩

theorem sliceInterval_mem_props {iv : TimeInterval} {dur : Nat} {s : TimeInterval}
    (hs : s ∈ sliceInterval iv dur) :
    s.stop = s.start + dur ∧ iv.start ≤ s.start ∧ s.stop ≤ iv.stop := by
  obtain ⟨k, hk, hks⟩ := sliceInterval_mem hs
  subst hks
  have h1 : (k + 1) * dur ≤ ((iv.stop - iv.start) / dur) * dur :=
    Nat.mul_le_mul_right dur hk
  have h2 : ((iv.stop - iv.start) / dur) * dur ≤ iv.stop - iv.start :=
    Nat.div_mul_le_self _ _
  have h3 : (k + 1) * dur ≤ iv.stop - iv.start := le_trans h1 h2
  have hdur : 0 < dur := by
    rcases Nat.eq_zero_or_pos dur with h | h
    · subst h
      rw [Nat.div_zero] at hk
      omega
    · exact h
  have h5 : 1 ≤ (k + 1) * dur := Nat.mul_pos (Nat.succ_pos k) hdur
  simp only []
  constructor
  · ring
  · omega

theorem sliceInterval_pairwise (iv : TimeInterval) (dur : Nat) :
    (sliceInterval iv dur).Pairwise (fun a b => a.stop ≤ b.start) := by
  unfold sliceInterval
  rw [List.pairwise_map]
  refine (List.pairwise_lt_range _).imp (fun {k k'} hkk => ?_)
  simp only []
  have : (k + 1) * dur ≤ k' * dur := Nat.mul_le_mul_right dur hkk
  omega

theorem sliceInterval_chain (iv : TimeInterval) (dur : Nat) :
    (sliceInterval iv dur).Chain' (fun a b => a.stop = b.start) := by
  rw [List.chain'_iff_get]
  intro i hi
  unfold sliceInterval at *
  simp only [List.get_eq_getElem, List.getElem_map, List.getElem_range]

/-! Lemmas about input validation. -/

theorem parseRaw_eq_none_iff (r : RawInterval) : parseRaw r = none ↔ malformedRaw r := by
  obtain ⟨rs, re⟩ := r
  cases rs with
  | none => simp [parseRaw, malformedRaw]
  | some a =>
    cases re with
    | none => simp [parseRaw, malformedRaw]
    | some b =>
      unfold parseRaw malformedRaw
      by_cases hba : b < a
      · simp [if_pos hba, hba]
      · simp [if_neg hba, hba]

theorem parseRaw_some_wf {r : RawInterval} {t : TimeInterval}
    (h : parseRaw r = some t) : t.start ≤ t.stop := by
  obtain ⟨rs, re⟩ := r
  cases rs with
  | none => exact absurd h (by simp [parseRaw])
  | some a =>
    cases re with
    | none => exact absurd h (by simp [parseRaw])
    | some b =>
      unfold parseRaw at h
      simp only [] at h
      by_cases hba : b < a
      · rw [if_pos hba] at h
        exact absurd h (by simp)
      · rw [if_neg hba, Option.some.injEq] at h
        subst h
        simp only []
        omega

theorem parseRaw_of_fields {r : RawInterval} {t : TimeInterval} {a b : Nat}
    (ha : r.start = some a) (hb : r.stop = some b)
    (h : parseRaw r = some t) : t = ⟨a, b⟩ := by
  obtain ⟨rs, re⟩ := r
  simp only [] at ha hb
  subst ha
  subst hb
  unfold parseRaw at h
  simp only [] at h
  by_cases hba : b < a
  · rw [if_pos hba] at h
    exact absurd h (by simp)
  · rw [if_neg hba, Option.some.injEq] at h
    exact h.symm

theorem validateBusy_ok_wf {pid : String} {rs : List RawInterval} {idx : Nat}
    {l : List TimeInterval} (h : validateBusy pid rs idx = .ok l) :
    ∀ i ∈ l, i.start ≤ i.stop := by
  induction rs generalizing idx l with
  | nil =>
    unfold validateBusy at h
    rw [Except.ok.injEq] at h
    subst h
    simp
  | cons r rest ih =>
    unfold validateBusy at h
    cases hp : parseRaw r with
    | none =>
      rw [hp] at h
      simp only [] at h
      exact absurd h (by simp)
    | some t =>
      rw [hp] at h
      simp only [] at h
      cases hrec : validateBusy pid rest (idx + 1) with
      | error e =>
        rw [hrec] at h
        simp only [] at h
        exact absurd h (by simp)
      | ok ts =>
        rw [hrec] at h
        simp only [Except.ok.injEq] at h
        subst h
        intro i hi
        rcases List.mem_cons.mp hi with hi | hi
        · rw [hi]
          exact parseRaw_some_wf hp
        · exact ih hrec i hi

theorem validateBusy_ok_mem {pid : String} {rs : List RawInterval} {idx : Nat}
    {l : List TimeInterval} (h : validateBusy pid rs idx = .ok l) :
    ∀ r ∈ rs, ∀ a b, r.start = some a → r.stop = some b →
      (⟨a, b⟩ : TimeInterval) ∈ l := by
  induction rs generalizing idx l with
  | nil =>
    intro r hr
    exact absurd hr (List.not_mem_nil r)
  | cons r rest ih =>
    intro r' hr' a b ha hb
    unfold validateBusy at h
    cases hp : parseRaw r with
    | none =>
      rw [hp] at h
      simp only [] at h
      exact absurd h (by simp)
    | some t =>
      rw [hp] at h
      simp only [] at h
      cases hrec : validateBusy pid rest (idx + 1) with
      | error e =>
        rw [hrec] at h
        simp only [] at h
        exact absurd h (by simp)
      | ok ts =>
        rw [hrec] at h
        simp only [Except.ok.injEq] at h
        subst h
        rcases List.mem_cons.mp hr' with hr' | hr'
        · subst hr'
          rw [parseRaw_of_fields ha hb hp]
          exact List.mem_cons_self _ _
        · exact List.mem_cons_of_mem _ (ih hrec r' hr' a b ha hb)

theorem validateBusy_ok_of_valid {pid : String} {rs : List RawInterval} (idx : Nat)
    (h : ∀ r ∈ rs, ¬ malformedRaw r) :
    validateBusy pid rs idx = .ok (rs.filterMap parseRaw) := by
  induction rs generalizing idx with
  | nil => rfl
  | cons r rest ih =>
    have hr := h r (List.mem_cons_self r rest)
    rw [← parseRaw_eq_none_iff] at hr
    unfold validateBusy
    cases hp : parseRaw r with
    | none => exact absurd hp hr
    | some t =>
      rw [ih (idx + 1) (fun x hx => h x (List.mem_cons_of_mem r hx))]
      simp only [List.filterMap_cons, hp]

theorem validateBusy_error_of_malformed {pid : String} {rs : List RawInterval} (idx : Nat)
    (h : ∃ r ∈ rs, malformedRaw r) :
    ∃ i : Fin rs.length, malformedRaw (rs.get i) ∧
      validateBusy pid rs idx = .error (.invalidInterval pid (idx + i.val)) := by
  induction rs generalizing idx with
  | nil =>
    obtain ⟨r, hr, _⟩ := h
    exact absurd hr (List.not_mem_nil r)
  | cons r rest ih =>
    by_cases hr : malformedRaw r
    · refine ⟨⟨0, Nat.succ_pos _⟩, hr, ?_⟩
      unfold validateBusy
      rw [← parseRaw_eq_none_iff] at hr
      rw [hr]
      rfl
    · have hrest : ∃ x ∈ rest, malformedRaw x := by
        obtain ⟨x, hx, hmx⟩ := h
        rcases List.mem_cons.mp hx with hx | hx
        · subst hx
          exact absurd hmx hr
        · exact ⟨x, hx, hmx⟩
      obtain ⟨i, hmi, hval⟩ := ih (idx + 1) hrest
      refine ⟨⟨i.val + 1, Nat.succ_lt_succ i.isLt⟩, hmi, ?_⟩
      unfold validateBusy
      cases hp : parseRaw r with
      | none =>
        rw [parseRaw_eq_none_iff] at hp
        exact absurd hp hr
      | some t =>
        rw [hval]
        have harith : idx + 1 + i.val = idx + (i.val + 1) := by omega
        rw [harith]

theorem validateBusy_error_shape {pid : String} {rs : List RawInterval} {idx : Nat}
    {e : SchedulingError} (h : validateBusy pid rs idx = .error e) :
    ∃ i, e = .invalidInterval pid i := by
  induction rs generalizing idx with
  | nil => exact absurd h (by simp [validateBusy])
  | cons r rest ih =>
    unfold validateBusy at h
    cases hp : parseRaw r with
    | none =>
      rw [hp] at h
      simp only [Except.error.injEq] at h
      exact ⟨idx, h.symm⟩
    | some t =>
      rw [hp] at h
      simp only [] at h
      cases hrec : validateBusy pid rest (idx + 1) with
      | error e' =>
        rw [hrec] at h
        simp only [Except.error.injEq] at h
        subst h
        exact ih hrec
      | ok ts =>
        rw [hrec] at h
        exact absurd h (by simp)

theorem validateAll_ok_mem {ps : List ParticipantCalendar} {ls : List (List TimeInterval)}
    (h : validateAll ps = .ok ls) :
    ∀ p ∈ ps, ∃ l ∈ ls, validateBusy p.identity p.busy 0 = .ok l := by
  induction ps generalizing ls with
  | nil =>
    intro p hp
    exact absurd hp (List.not_mem_nil p)
  | cons p rest ih =>
    intro p' hp'
    unfold validateAll at h
    cases hv : validateBusy p.identity p.busy 0 with
    | error e =>
      rw [hv] at h
      exact absurd h (by simp)
    | ok l =>
      rw [hv] at h
      simp only [] at h
      cases hrec : validateAll rest with
      | error e =>
        rw [hrec] at h
        exact absurd h (by simp)
      | ok ls' =>
        rw [hrec] at h
        simp only [Except.ok.injEq] at h
        subst h
        rcases List.mem_cons.mp hp' with hp' | hp'
        · subst hp'
          exact ⟨l, List.mem_cons_self _ _, hv⟩
        · obtain ⟨l', hl', hvl'⟩ := ih hrec p' hp'
          exact ⟨l', List.mem_cons_of_mem _ hl', hvl'⟩

theorem validateAll_ok_wf {ps : List ParticipantCalendar} {ls : List (List TimeInterval)}
    (h : validateAll ps = .ok ls) :
    ∀ l ∈ ls, ∀ i ∈ l, i.start ≤ i.stop := by
  induction ps generalizing ls with
  | nil =>
    unfold validateAll at h
    rw [Except.ok.injEq] at h
    subst h
    simp
  | cons p rest ih =>
    unfold validateAll at h
    cases hv : validateBusy p.identity p.busy 0 with
    | error e =>
      rw [hv] at h
      exact absurd h (by simp)
    | ok l =>
      rw [hv] at h
      simp only [] at h
      cases hrec : validateAll rest with
      | error e =>
        rw [hrec] at h
        exact absurd h (by simp)
      | ok ls' =>
        rw [hrec] at h
        simp only [Except.ok.injEq] at h
        subst h
        intro l' hl'
        rcases List.mem_cons.mp hl' with hl' | hl'
        · subst hl'
          exact validateBusy_ok_wf hv
        · exact ih hrec l' hl'

theorem validateAll_ok_of_valid {ps : List ParticipantCalendar}
    (h : ∀ p ∈ ps, ∀ r ∈ p.busy, ¬ malformedRaw r) :
    validateAll ps = .ok (ps.map fun p => p.busy.filterMap parseRaw) := by
  induction ps with
  | nil => rfl
  | cons p rest ih =>
    unfold validateAll
    rw [validateBusy_ok_of_valid 0 (h p (List.mem_cons_self p rest)),
      ih (fun q hq => h q (List.mem_cons_of_mem p hq))]
    simp only [List.map_cons]

theorem validateAll_error_of_malformed {ps : List ParticipantCalendar}
    (h : ∃ p ∈ ps, ∃ r ∈ p.busy, malformedRaw r) :
    ∃ p, p ∈ ps ∧ ∃ i : Fin p.busy.length, malformedRaw (p.busy.get i) ∧
      validateAll ps = .error (.invalidInterval p.identity i.val) := by
  induction ps with
  | nil =>
    obtain ⟨p, hp, _⟩ := h
    exact absurd hp (List.not_mem_nil p)
  | cons p rest ih =>
    by_cases hp : ∃ r ∈ p.busy, malformedRaw r
    · obtain ⟨i, hmi, hval⟩ := @validateBusy_error_of_malformed p.identity p.busy 0 hp
      refine ⟨p, List.mem_cons_self p rest, i, hmi, ?_⟩
      unfold validateAll
      rw [hval]
      rw [Nat.zero_add] at hval ⊢
    · have hrest : ∃ q ∈ rest, ∃ r ∈ q.busy, malformedRaw r := by
        obtain ⟨q, hq, hmq⟩ := h
        rcases List.mem_cons.mp hq with hq | hq
        · subst hq
          exact absurd hmq hp
        · exact ⟨q, hq, hmq⟩
      obtain ⟨q, hq, i, hmi, hval⟩ := ih hrest
      refine ⟨q, List.mem_cons_of_mem p hq, i, hmi, ?_⟩
      unfold validateAll
      push_neg at hp
      cases hv : validateBusy p.identity p.busy 0 with
      | error e =>
        obtain ⟨j, hmj, hvj⟩ := @validateBusy_error_of_malformed p.identity p.busy 0
          (by_contra fun hc => by
            push_neg at hc
            exact absurd hv (by rw [validateBusy_ok_of_valid 0 (fun r hr => hp r hr)]; simp))
        exact absurd hmj (hp _ (List.get_mem p.busy j.val j.isLt))
      | ok l =>
        rw [hval]

theorem validateAll_error_shape {ps : List ParticipantCalendar} {e : SchedulingError}
    (h : validateAll ps = .error e) : ∃ pid i, e = .invalidInterval pid i := by
  induction ps with
  | nil => exact absurd h (by simp [validateAll])
  | cons p rest ih =>
    unfold validateAll at h
    cases hv : validateBusy p.identity p.busy 0 with
    | error e' =>
      rw [hv] at h
      simp only [Except.error.injEq] at h
      subst h
      obtain ⟨i, hi⟩ := validateBusy_error_shape hv
      exact ⟨p.identity, i, hi⟩
    | ok l =>
      rw [hv] at h
      simp only [] at h
      cases hrec : validateAll rest with
      | error e' =>
        rw [hrec] at h
        simp only [Except.error.injEq] at h
        subst h
        exact ih hrec
      | ok ls =>
        rw [hrec] at h
        exact absurd h (by simp)

theorem computeAvailability_ok_elim {req : AvailabilityRequest} {slots : List TimeInterval}
    (h : computeAvailability req = .ok slots) :
    req.duration ≠ 0 ∧ ∃ cals, validateAll req.participants = .ok cals ∧
      slots = extractSlots (workingWindows req.range) (aggregateBusy cals) req.duration := by
  unfold computeAvailability at h
  by_cases hd : req.duration = 0
  · rw [if_pos hd] at h
    exact absurd h (by simp)
  · rw [if_neg hd] at h
    refine ⟨hd, ?_⟩
    cases hv : validateAll req.participants with
    | error e =>
      rw [hv] at h
      exact absurd h (by simp)
    | ok cals =>
      rw [hv] at h
      simp only [Except.ok.injEq] at h
      exact ⟨cals, rfl, h.symm⟩

/-! The claim theorems. -/

/-- C2: for every set of participants' busy intervals (possibly unsorted
and overlapping), the aggregator's output is sorted ascending by start,
pairwise disjoint (consecutive merged intervals do not even touch), its
union covers exactly the instants covered by some input interval of some
participant, and the empty participant set produces the empty busy
set. -/
theorem aggregateBusy_correct (cals : List (List TimeInterval))
    (h : ∀ l ∈ cals, ∀ i ∈ l, i.start ≤ i.stop) :
    (aggregateBusy cals).Pairwise (fun a b => a.start < b.start) ∧
    (aggregateBusy cals).Pairwise (fun a b => a.stop < b.start) ∧
    (∀ t, coversAny (aggregateBusy cals) t ↔ ∃ l ∈ cals, coversAny l t) ∧
    aggregateBusy [] = [] := by
  have hwf : ∀ i ∈ cals.flatten, i.start ≤ i.stop := by
    intro i hi
    obtain ⟨l, hl, hil⟩ := List.mem_flatten.mp hi
    exact h l hl i hil
  have hdisj := aggregateBusy_pairwise cals
  have hmemwf := aggregateBusy_wf cals hwf
  refine ⟨?_, hdisj, aggregateBusy_covers cals, rfl⟩
  refine hdisj.imp_of_mem (fun ha hb hab => ?_)
  have := hmemwf _ ha
  omega

/-- C2 witness: the aggregator applied to two participants with unsorted
overlapping busy intervals. -/
theorem aggregateBusy_correct_witness :
    (∀ l ∈ [[(⟨120, 180⟩ : TimeInterval), ⟨60, 150⟩], [⟨300, 360⟩]], ∀ i ∈ l,
      i.start ≤ i.stop) ∧
    ((aggregateBusy [[⟨120, 180⟩, ⟨60, 150⟩], [⟨300, 360⟩]]).Pairwise
      (fun a b => a.start < b.start) ∧
    (aggregateBusy [[⟨120, 180⟩, ⟨60, 150⟩], [⟨300, 360⟩]]).Pairwise
      (fun a b => a.stop < b.start) ∧
    (∀ t, coversAny (aggregateBusy [[⟨120, 180⟩, ⟨60, 150⟩], [⟨300, 360⟩]]) t ↔
      ∃ l ∈ [[(⟨120, 180⟩ : TimeInterval), ⟨60, 150⟩], [⟨300, 360⟩]], coversAny l t) ∧
    aggregateBusy [] = []) :=
  ⟨by decide, aggregateBusy_correct [[⟨120, 180⟩, ⟨60, 150⟩], [⟨300, 360⟩]] (by decide)⟩

/-- C4: every generated working window falls on a weekday, spans exactly
the canonical [08:00, 17:00) bounds of its day clipped to the requested
range, and is nonempty; a boundary day whose clipped window would be
empty contributes no window at all. -/
theorem workingWindows_policy (range : TimeInterval) :
    ∀ w ∈ workingWindows range, ∃ d, isWeekday d = true ∧
      w.start = max (d * minutesPerDay + dayStartMinute) range.start ∧
      w.stop = min (d * minutesPerDay + dayEndMinute) range.stop ∧
      w.start < w.stop :=
  fun _ hw => mem_workingWindows hw

/-- C4 witness: a one-day Monday range produces the 08:00-17:00 window,
and the policy facts hold for it; a range ending before 08:00 on a
Friday indeed produces no window at all. -/
theorem workingWindows_policy_witness :
    (⟨480, 1020⟩ : TimeInterval) ∈ workingWindows ⟨0, 1440⟩ ∧
    (∃ d, isWeekday d = true ∧
      (480 : Nat) = max (d * minutesPerDay + dayStartMinute) 0 ∧
      (1020 : Nat) = min (d * minutesPerDay + dayEndMinute) 1440 ∧
      (480 : Nat) < 1020) ∧
    workingWindows ⟨5860, 5920⟩ = [] :=
  ⟨by decide, workingWindows_policy ⟨0, 1440⟩ ⟨480, 1020⟩ (by decide), by decide⟩

/-- C3: slots sliced from a free sub-interval are exactly `dur` minutes
long and lie inside it, consecutive slots abut exactly (no gap, no
overlap), a sub-interval of length at least `dur` yields a first slot
starting at its start, the number of emitted slots is maximal (the
remainder below the next multiple of `dur` is discarded), and the
concrete scenario holds: no busy intervals on a one-day Monday range
with duration 60 yields the nine hourly slots from 08:00, the last
starting at 16:00. -/
theorem sliceInterval_spec_and_monday :
    (∀ (iv : TimeInterval) (dur : Nat), ∀ s ∈ sliceInterval iv dur,
      s.stop = s.start + dur ∧ iv.start ≤ s.start ∧ s.stop ≤ iv.stop) ∧
    (∀ (iv : TimeInterval) (dur : Nat),
      (sliceInterval iv dur).Chain' (fun a b => a.stop = b.start)) ∧
    (∀ (iv : TimeInterval) (dur : Nat), 0 < dur → iv.start + dur ≤ iv.stop →
      (sliceInterval iv dur).head? = some ⟨iv.start, iv.start + dur⟩) ∧
    (∀ (iv : TimeInterval) (dur : Nat), 0 < dur →
      (sliceInterval iv dur).length * dur ≤ iv.stop - iv.start ∧
      iv.stop - iv.start < ((sliceInterval iv dur).length + 1) * dur) ∧
    computeAvailability ⟨[], ⟨0, 1440⟩, 60⟩ =
      .ok [⟨480, 540⟩, ⟨540, 600⟩, ⟨600, 660⟩, ⟨660, 720⟩, ⟨720, 780⟩,
           ⟨780, 840⟩, ⟨840, 900⟩, ⟨900, 960⟩, ⟨960, 1020⟩] := by
  refine ⟨fun iv dur s hs => sliceInterval_mem_props hs,
    fun iv dur => sliceInterval_chain iv dur, ?_, ?_, rfl⟩
  · intro iv dur hdur hlen
    have hq : 1 ≤ (iv.stop - iv.start) / dur := by
      rw [Nat.le_div_iff_mul_le hdur]
      omega
    unfold sliceInterval
    obtain ⟨m, hm⟩ := Nat.exists_eq_add_of_le hq
    rw [Nat.add_comm 1 m] at hm
    rw [hm]
    rw [List.range_succ_eq_map]
    simp only [List.map_cons, List.head?_cons, Option.some.injEq]
    rw [TimeInterval.mk.injEq]
    constructor
    · omega
    · omega
  · intro iv dur hdur
    unfold sliceInterval
    rw [List.length_map, List.length_range]
    constructor
    · exact Nat.div_mul_le_self _ _
    · have h1 : ((iv.stop - iv.start) / dur + 1) * dur =
          dur * ((iv.stop - iv.start) / dur) + dur := by ring
      rw [h1]
      have h2 := Nat.div_add_mod (iv.stop - iv.start) dur
      have h3 := Nat.mod_lt (iv.stop - iv.start) hdur
      omega

/-- C3 witness: the slicing facts instantiated on the free interval
[08:00, 17:00) with duration 60. -/
theorem sliceInterval_spec_and_monday_witness :
    ((⟨480, 540⟩ : TimeInterval) ∈ sliceInterval ⟨480, 1020⟩ 60 ∧
      (480 + 60 : Nat) = 480 + 60) ∧
    (0 < 60 ∧ (480 : Nat) + 60 ≤ 1020 ∧
      (sliceInterval ⟨480, 1020⟩ 60).head? = some ⟨480, 540⟩) ∧
    ((sliceInterval ⟨480, 1020⟩ 60).length * 60 ≤ 1020 - 480 ∧
      (1020 : Nat) - 480 < ((sliceInterval ⟨480, 1020⟩ 60).length + 1) * 60) := by
  refine ⟨⟨by decide, rfl⟩, ⟨by decide, by decide, ?_⟩, ?_⟩
  · have := sliceInterval_spec_and_monday.2.2.1 ⟨480, 1020⟩ 60 (by decide) (by decide)
    simpa using this
  · exact sliceInterval_spec_and_monday.2.2.2.1 ⟨480, 1020⟩ 60 (by decide)

/-- C5: a request with a malformed busy interval (unparsable timestamp
or end before start) fails during input validation with an error naming
the offending participant and interval index, and a request whose
intervals are all well formed runs all three stages and returns a slot
list; the `Except` result is all-or-nothing, so no partial slot list can
be produced.  The duration is assumed nonzero so that the duration check
(surfaced separately as `invalidDuration`) does not preempt interval
validation. -/
theorem computeAvailability_fail_fast :
    (∀ req : AvailabilityRequest, req.duration ≠ 0 →
      (∃ p ∈ req.participants, ∃ r ∈ p.busy, malformedRaw r) →
      ∃ p, p ∈ req.participants ∧ ∃ i : Fin p.busy.length,
        malformedRaw (p.busy.get i) ∧
        computeAvailability req = .error (.invalidInterval p.identity i.val)) ∧
    (∀ req : AvailabilityRequest, req.duration ≠ 0 →
      (∀ p ∈ req.participants, ∀ r ∈ p.busy, ¬ malformedRaw r) →
      ∃ slots, computeAvailability req = .ok slots) := by
  constructor
  · intro req hd hmal
    obtain ⟨p, hp, i, hmi, hval⟩ := validateAll_error_of_malformed hmal
    refine ⟨p, hp, i, hmi, ?_⟩
    unfold computeAvailability
    rw [if_neg hd, hval]
  · intro req hd hok
    refine ⟨extractSlots (workingWindows req.range)
      (aggregateBusy (req.participants.map fun p => p.busy.filterMap parseRaw))
      req.duration, ?_⟩
    unfold computeAvailability
    rw [if_neg hd, validateAll_ok_of_valid hok]

/-- C5 witness: a request whose single participant has an inverted busy
interval fails with an error naming that participant and index 0, and
the same request with a well-formed interval succeeds. -/
theorem computeAvailability_fail_fast_witness :
    (∃ p, p ∈ [(⟨"alice", [⟨some 300, some 240⟩]⟩ : ParticipantCalendar)] ∧
      ∃ i : Fin p.busy.length, malformedRaw (p.busy.get i) ∧
        computeAvailability ⟨[⟨"alice", [⟨some 300, some 240⟩]⟩], ⟨0, 1440⟩, 60⟩ =
          .error (.invalidInterval p.identity i.val)) ∧
    (∃ slots, computeAvailability ⟨[⟨"bob", [⟨some 240, some 300⟩]⟩], ⟨0, 1440⟩, 60⟩ =
      .ok slots) :=
  ⟨computeAvailability_fail_fast.1 ⟨[⟨"alice", [⟨some 300, some 240⟩]⟩], ⟨0, 1440⟩, 60⟩
      (by decide) ⟨⟨"alice", [⟨some 300, some 240⟩]⟩, by decide,
        ⟨some 300, some 240⟩, by decide, by decide⟩,
    computeAvailability_fail_fast.2 ⟨[⟨"bob", [⟨some 240, some 300⟩]⟩], ⟨0, 1440⟩, 60⟩
      (by decide) (by decide)⟩

theorem parseRaw_zero_iff {r : RawInterval} {t : TimeInterval}
    (h : parseRaw r = some t) : isZeroLenRaw r = (t.start == t.stop) := by
  obtain ⟨rs, re⟩ := r
  cases rs with
  | none => exact absurd h (by simp [parseRaw])
  | some a =>
    cases re with
    | none => exact absurd h (by simp [parseRaw])
    | some b =>
      unfold parseRaw at h
      simp only [] at h
      by_cases hba : b < a
      · rw [if_pos hba] at h
        exact absurd h (by simp)
      · rw [if_neg hba, Option.some.injEq] at h
        subst h
        rfl

theorem filterMap_parse_filter_zero {rs : List RawInterval}
    (h : ∀ r ∈ rs, ¬ malformedRaw r) :
    (rs.filter (fun r => !isZeroLenRaw r)).filterMap parseRaw =
      (rs.filterMap parseRaw).filter (fun i => i.start != i.stop) := by
  induction rs with
  | nil => rfl
  | cons r rest ih =>
    have hr := h r (List.mem_cons_self r rest)
    rw [← parseRaw_eq_none_iff] at hr
    cases hp : parseRaw r with
    | none => exact absurd hp hr
    | some t =>
      have hz := parseRaw_zero_iff hp
      by_cases hzl : isZeroLenRaw r
      · rw [List.filter_cons_of_neg (by simp [hzl]), List.filterMap_cons_some hp,
          List.filter_cons_of_neg (by rw [hzl] at hz; simp [bne, ← hz])]
        exact ih (fun x hx => h x (List.mem_cons_of_mem r hx))
      · rw [Bool.not_eq_true] at hzl
        rw [List.filter_cons_of_pos (by simp [hzl]), List.filterMap_cons_some hp,
          List.filterMap_cons_some hp,
          List.filter_cons_of_pos (by rw [hzl] at hz; simp [bne, ← hz])]
        rw [ih (fun x hx => h x (List.mem_cons_of_mem r hx))]

theorem aggregateBusy_congr {cals cals' : List (List TimeInterval)}
    (h : cals.flatten.filter (fun i => i.start != i.stop) =
      cals'.flatten.filter (fun i => i.start != i.stop)) :
    aggregateBusy cals = aggregateBusy cals' := by
  unfold aggregateBusy
  rw [h]

/-- C7: a zero-length busy interval raises no error and is silently
dropped: a well-formed request computes exactly the same result after
all zero-length intervals are removed, and the request succeeds. -/
theorem zero_length_intervals_dropped :
    ∀ req : AvailabilityRequest, req.duration ≠ 0 →
      (∀ p ∈ req.participants, ∀ r ∈ p.busy, ¬ malformedRaw r) →
      computeAvailability (dropZeroRequest req) = computeAvailability req ∧
      ∃ slots, computeAvailability req = .ok slots := by
  intro req hd hok
  have hok' : ∀ p ∈ (dropZeroRequest req).participants, ∀ r ∈ p.busy, ¬ malformedRaw r := by
    intro p hp r hr
    unfold dropZeroRequest at hp
    simp only [] at hp
    obtain ⟨q, hq, hqp⟩ := List.mem_map.mp hp
    subst hqp
    simp only [] at hr
    exact hok q hq r (List.mem_of_mem_filter hr)
  have hv := validateAll_ok_of_valid hok
  have hv' := validateAll_ok_of_valid hok'
  have hagg : aggregateBusy ((dropZeroRequest req).participants.map
        fun p => p.busy.filterMap parseRaw) =
      aggregateBusy (req.participants.map fun p => p.busy.filterMap parseRaw) := by
    refine aggregateBusy_congr ?_
    unfold dropZeroRequest
    simp only [List.map_map]
    rw [List.filter_flatten, List.filter_flatten, List.map_map, List.map_map]
    congr 1
    refine List.map_congr_left (fun p hp => ?_)
    simp only [Function.comp]
    rw [filterMap_parse_filter_zero (hok p hp), List.filter_filter]
    refine List.filter_congr (fun i _ => ?_)
    rw [Bool.and_self]
  constructor
  · have hd' : (dropZeroRequest req).duration ≠ 0 := hd
    unfold computeAvailability
    rw [if_neg hd', if_neg hd, hv, hv']
    simp only [Except.ok.injEq]
    rw [hagg]
    rfl
  · exact ⟨_, by unfold computeAvailability; rw [if_neg hd, hv]⟩

/-- C7 witness: a request whose participant has one zero-length interval
at 09:00 succeeds, computes the same slots as the request without it,
and in particular raises no error. -/
theorem zero_length_intervals_dropped_witness :
    computeAvailability
        (dropZeroRequest ⟨[⟨"alice", [⟨some 540, some 540⟩]⟩], ⟨0, 1440⟩, 60⟩) =
      computeAvailability ⟨[⟨"alice", [⟨some 540, some 540⟩]⟩], ⟨0, 1440⟩, 60⟩ ∧
    ∃ slots, computeAvailability ⟨[⟨"alice", [⟨some 540, some 540⟩]⟩], ⟨0, 1440⟩, 60⟩ =
      .ok slots :=
  zero_length_intervals_dropped ⟨[⟨"alice", [⟨some 540, some 540⟩]⟩], ⟨0, 1440⟩, 60⟩
    (by decide) (by decide)

theorem extractSlots_mem_iff {windows busy : List TimeInterval} {dur : Nat} {s : TimeInterval} :
    s ∈ extractSlots windows busy dur ↔
      ∃ w ∈ windows, ∃ f ∈ subtractBusy w busy, s ∈ sliceInterval f dur := by
  unfold extractSlots
  simp only [List.mem_flatMap]

theorem subtractBusy_bounds {w : TimeInterval} {busy : List TimeInterval} :
    ∀ f ∈ subtractBusy w busy, w.start ≤ f.start ∧ f.start < f.stop ∧ f.stop ≤ w.stop := by
  unfold subtractBusy
  exact subtractGo_mem_bounds w.start w.stop busy

theorem subtractBusy_pairwise {w : TimeInterval} {busy : List TimeInterval}
    (hwf : ∀ b ∈ busy, b.start ≤ b.stop) :
    (subtractBusy w busy).Pairwise (fun a b => a.stop ≤ b.start) := by
  unfold subtractBusy
  exact subtractGo_pairwise w.start w.stop busy hwf

theorem subtractBusy_free {w : TimeInterval} {busy : List TimeInterval}
    (hsort : busy.Pairwise (fun a b => a.start ≤ b.start)) :
    ∀ f ∈ subtractBusy w busy, ∀ t, f.start ≤ t → t < f.stop →
      ∀ b ∈ busy, ¬ covers b t := by
  unfold subtractBusy
  exact subtractGo_free w.start w.stop busy hsort

theorem slot_within_window {w : TimeInterval} {busy : List TimeInterval} {dur : Nat}
    {s f : TimeInterval} (hf : f ∈ subtractBusy w busy) (hs : s ∈ sliceInterval f dur) :
    w.start ≤ s.start ∧ s.stop ≤ w.stop := by
  have hb := subtractBusy_bounds f hf
  have hp := sliceInterval_mem_props hs
  omega

theorem extractSlots_pairwise {windows busy : List TimeInterval} {dur : Nat}
    (hwin : windows.Pairwise (fun a b => a.stop < b.start))
    (hbwf : ∀ b ∈ busy, b.start ≤ b.stop) :
    (extractSlots windows busy dur).Pairwise (fun a b => a.stop ≤ b.start) := by
  unfold extractSlots
  rw [List.pairwise_flatMap]
  constructor
  · intro w hw
    rw [List.pairwise_flatMap]
    refine ⟨fun f hf => sliceInterval_pairwise f dur, ?_⟩
    refine (subtractBusy_pairwise hbwf).imp (fun {f f'} hff => ?_)
    intro u hu v hv
    have hu' := sliceInterval_mem_props hu
    have hv' := sliceInterval_mem_props hv
    omega
  · refine hwin.imp (fun {w w'} hww => ?_)
    intro x hx y hy
    obtain ⟨f, hf, hxf⟩ := List.mem_flatMap.mp hx
    obtain ⟨f', hf', hyf⟩ := List.mem_flatMap.mp hy
    have h1 := slot_within_window hf hxf
    have h2 := slot_within_window hf' hyf
    omega

/-- C1: whenever the computation succeeds, every emitted slot is exactly
`duration` minutes long; the slots are pairwise disjoint and sorted
ascending; every slot lies entirely within exactly one working window;
no slot shares any instant with any busy interval of any participant;
and every slot lies within the requested range. -/
theorem computeAvailability_slot_invariants :
    ∀ (req : AvailabilityRequest) (slots : List TimeInterval),
      computeAvailability req = .ok slots →
      (∀ s ∈ slots, s.stop = s.start + req.duration) ∧
      slots.Pairwise (fun a b => a.stop ≤ b.start) ∧
      (∀ s ∈ slots, ∃ w, w ∈ workingWindows req.range ∧
        w.start ≤ s.start ∧ s.stop ≤ w.stop ∧
        ∀ w', w' ∈ workingWindows req.range → w'.start ≤ s.start → s.stop ≤ w'.stop →
          w' = w) ∧
      (∀ s ∈ slots, ∀ p ∈ req.participants, ∀ r ∈ p.busy, ∀ a b : Nat,
        r.start = some a → r.stop = some b →
        ∀ t, s.start ≤ t → t < s.stop → ¬ (a ≤ t ∧ t < b)) ∧
      (∀ s ∈ slots, req.range.start ≤ s.start ∧ s.stop ≤ req.range.stop) := by
  intro req slots h
  obtain ⟨hd, cals, hv, hslots⟩ := computeAvailability_ok_elim h
  subst hslots
  have hflatwf : ∀ i ∈ cals.flatten, i.start ≤ i.stop := by
    intro i hi
    obtain ⟨l, hl, hil⟩ := List.mem_flatten.mp hi
    exact validateAll_ok_wf hv l hl i hil
  have hbwf : ∀ b ∈ aggregateBusy cals, b.start ≤ b.stop :=
    fun b hb => le_of_lt (aggregateBusy_wf cals hflatwf b hb)
  refine ⟨?_, extractSlots_pairwise (workingWindows_pairwise req.range) hbwf, ?_, ?_, ?_⟩
  · intro s hs
    obtain ⟨w, hw, f, hf, hsf⟩ := extractSlots_mem_iff.mp hs
    exact (sliceInterval_mem_props hsf).1
  · intro s hs
    obtain ⟨w, hw, f, hf, hsf⟩ := extractSlots_mem_iff.mp hs
    obtain ⟨hws, hwe⟩ := slot_within_window hf hsf
    have hlen : s.stop = s.start + req.duration := (sliceInterval_mem_props hsf).1
    have hne : s.start < s.stop := by omega
    refine ⟨w, hw, hws, hwe, ?_⟩
    intro w' hw' hw's hw'e
    by_contra hcontra
    have hsym : (workingWindows req.range).Pairwise
        (fun a b => a.stop < b.start ∨ b.stop < a.start) :=
      (workingWindows_pairwise req.range).imp (fun hab => Or.inl hab)
    have hdisj := List.Pairwise.forall
      (fun x y hxy => Or.symm hxy) hsym hw' hw hcontra
    omega
  · intro s hs p hp r hr a b ha hb t ht1 ht2 hcov
    obtain ⟨w, hw, f, hf, hsf⟩ := extractSlots_mem_iff.mp hs
    have hprops := sliceInterval_mem_props hsf
    have hfree := subtractBusy_free (aggregateBusy_sorted_starts cals) f hf t
      (by omega) (by omega)
    obtain ⟨l, hl, hvl⟩ := validateAll_ok_mem hv p hp
    have hmem : (⟨a, b⟩ : TimeInterval) ∈ l := validateBusy_ok_mem hvl r hr a b ha hb
    have hagg : coversAny (aggregateBusy cals) t :=
      (aggregateBusy_covers cals t).mpr ⟨l, hl, ⟨a, b⟩, hmem, hcov.1, hcov.2⟩
    obtain ⟨bb, hbb, hbbc⟩ := hagg
    exact hfree bb hbb hbbc
  · intro s hs
    obtain ⟨w, hw, f, hf, hsf⟩ := extractSlots_mem_iff.mp hs
    have h1 := slot_within_window hf hsf
    have h2 := workingWindows_subset_range hw
    omega

/-- C1 witness: the spec's one-busy-hour scenario: one participant busy
09:00-10:00 on a Monday, duration 60, produces the eight hourly slots
skipping [09:00, 10:00), and the invariants hold for them. -/
theorem computeAvailability_slot_invariants_witness :
    computeAvailability ⟨[⟨"alice", [⟨some 540, some 600⟩]⟩], ⟨0, 1440⟩, 60⟩ =
      .ok [⟨480, 540⟩, ⟨600, 660⟩, ⟨660, 720⟩, ⟨720, 780⟩, ⟨780, 840⟩,
           ⟨840, 900⟩, ⟨900, 960⟩, ⟨960, 1020⟩] ∧
    ([(⟨480, 540⟩ : TimeInterval), ⟨600, 660⟩, ⟨660, 720⟩, ⟨720, 780⟩, ⟨780, 840⟩,
      ⟨840, 900⟩, ⟨900, 960⟩, ⟨960, 1020⟩].Pairwise (fun a b => a.stop ≤ b.start)) :=
  ⟨rfl,
    (computeAvailability_slot_invariants
      ⟨[⟨"alice", [⟨some 540, some 600⟩]⟩], ⟨0, 1440⟩, 60⟩
      [⟨480, 540⟩, ⟨600, 660⟩, ⟨660, 720⟩, ⟨720, 780⟩, ⟨780, 840⟩,
       ⟨840, 900⟩, ⟨900, 960⟩, ⟨960, 1020⟩] rfl).2.1⟩

/-! Lemmas about the JavaScript split model. -/

theorem jsSplitChar_ne_nil (sep : Char) (l : List Char) : jsSplitChar sep l ≠ [] := by
  cases l with
  | nil => simp [jsSplitChar]
  | cons c rest =>
    unfold jsSplitChar
    cases h : jsSplitChar sep rest with
    | nil => simp
    | cons f r =>
      by_cases hc : c = sep <;> simp [hc]

theorem jsSplitChar_cons (sep c : Char) (rest : List Char) :
    jsSplitChar sep (c :: rest) =
      if c = sep then [] :: jsSplitChar sep rest
      else (c :: (jsSplitChar sep rest).headI) :: (jsSplitChar sep rest).tail := by
  have hunf : jsSplitChar sep (c :: rest) =
      (match jsSplitChar sep rest with
       | [] => [[]]
       | f :: r => if c = sep then [] :: f :: r else (c :: f) :: r) := rfl
  rw [hunf]
  cases h : jsSplitChar sep rest with
  | nil => exact absurd h (jsSplitChar_ne_nil sep rest)
  | cons f r =>
    simp only [List.headI, List.tail_cons]

theorem jsSplitChar_head (l : List Char) :
    (jsSplitChar '@' l).head? = some (untilAt l) := by
  induction l with
  | nil => rfl
  | cons c rest ih =>
    rw [jsSplitChar_cons]
    by_cases hc : c = '@'
    · rw [if_pos hc]
      unfold untilAt
      rw [List.takeWhile_cons_of_neg (by simp [hc])]
      rfl
    · rw [if_neg hc]
      unfold untilAt
      rw [List.takeWhile_cons_of_pos (by simp [hc])]
      rw [List.head?_cons, Option.some.injEq]
      cases h : jsSplitChar '@' rest with
      | nil => exact absurd h (jsSplitChar_ne_nil '@' rest)
      | cons f r =>
        rw [h] at ih
        rw [List.head?_cons, Option.some.injEq] at ih
        simp only [List.headI]
        rw [ih]
        rfl

theorem jsSplit_domain_eq (domains : List String) (l : List Char) :
    (match (jsSplitChar '@' l).drop 1 with
     | [] => false
     | d :: _ => domains.contains (String.mk d)) =
    (match fromFirstAt l with
     | [] => false
     | _ :: rest => domains.contains (String.mk (untilAt rest))) := by
  induction l with
  | nil => rfl
  | cons c rest ih =>
    rw [jsSplitChar_cons]
    by_cases hc : c = '@'
    · rw [if_pos hc]
      unfold fromFirstAt
      rw [List.dropWhile_cons_of_neg (by simp [hc])]
      simp only [List.drop_succ_cons, List.drop_zero]
      cases h : jsSplitChar '@' rest with
      | nil => exact absurd h (jsSplitChar_ne_nil '@' rest)
      | cons f r =>
        have hh := jsSplitChar_head rest
        rw [h, List.head?_cons, Option.some.injEq] at hh
        simp only [hh]
    · rw [if_neg hc]
      unfold fromFirstAt
      rw [List.dropWhile_cons_of_pos (by simp [hc])]
      simp only [List.drop_succ_cons, List.drop_zero]
      rw [List.drop_one] at ih
      unfold fromFirstAt at ih
      exact ih

/-- C8: the middleware computes exactly the claimed decision procedure:
'/api/auth' paths always pass through; otherwise a non-public path with
no session token redirects to '/auth/signin', a public path with a token
redirects to '/', and every remaining request passes through. -/
theorem middleware_matches_claim :
    ∀ (path : String) (hasToken : Bool),
      middleware path hasToken = middlewareClaim path hasToken := by
  intro path hasToken
  unfold middleware middlewareClaim publicPaths
  simp only [List.any_cons, List.any_nil, Bool.or_false]
  cases hasToken <;>
    cases h1 : path.startsWith "/api/auth" <;>
    cases h2 : path.startsWith "/auth/signin" <;>
    cases h3 : path == "/auth/signin" <;>
    cases h4 : path.startsWith "/auth/error" <;>
    cases h5 : path == "/auth/error" <;>
    simp

/-- C9 counterexample: for the email "a@teamodea.com@evil" under the
default allowed-domains list, the code accepts (split("@")[1] is
"teamodea.com") while the claim's reading — the substring after the
first '@', namely "teamodea.com@evil" — would reject. -/
theorem signIn_counterexample :
    signInCallback (some "a@teamodea.com@evil") none = true ∧
    signInClaimed (some "a@teamodea.com@evil") none = false :=
  ⟨rfl, rfl⟩

/-- C9 (amended): the sign-in callback accepts exactly when the user has
a nonempty email and either the allowed-domains list contains "*" or the
segment of the email strictly between the first and second '@'
(JavaScript's split("@")[1]) is a member of the list; a user with no
email is always rejected, and a user whose email has no '@' is rejected
whenever the wildcard is absent. -/
theorem signInCallback_amended :
    (∀ email env, signInCallback email env = signInAmended email env) ∧
    (∀ env, signInCallback none env = false) ∧
    (∀ e env, e ≠ "" → fromFirstAt e.toList = [] →
      (allowedDomainsOf env).contains "*" = false →
      signInCallback (some e) env = false) := by
  have hmain : ∀ email env, signInCallback email env = signInAmended email env := by
    intro email env
    cases email with
    | none => rfl
    | some e =>
      unfold signInCallback signInAmended
      simp only []
      by_cases he : e = ""
      · rw [if_pos he, if_pos he]
      · rw [if_neg he, if_neg he]
        by_cases hw : (allowedDomainsOf env).contains "*"
        · rw [if_pos hw, hw, Bool.true_or]
        · rw [Bool.not_eq_true] at hw
          rw [if_neg (by rw [hw]; exact Bool.false_ne_true), hw, Bool.false_or]
          exact jsSplit_domain_eq (allowedDomainsOf env) e.toList
  refine ⟨hmain, fun env => rfl, ?_⟩
  intro e env he hat hw
  unfold signInCallback
  simp only []
  rw [if_neg he, if_neg (by rw [hw]; exact Bool.false_ne_true)]
  rw [jsSplit_domain_eq (allowedDomainsOf env) e.toList, hat]

/-- C9 amended witness: the counterexample email is accepted by the code
and by the amended rule alike, and an email without '@' is rejected when
no wildcard is configured. -/
theorem signInCallback_amended_witness :
    signInCallback (some "a@teamodea.com@evil") none =
      signInAmended (some "a@teamodea.com@evil") none ∧
    signInCallback none none = false ∧
    signInCallback (some "nodomain") none = false :=
  ⟨signInCallback_amended.1 (some "a@teamodea.com@evil") none,
    signInCallback_amended.2.1 none,
    signInCallback_amended.2.2 "nodomain" none (by decide) rfl rfl⟩

theorem quoted_message_ne (s : String) :
    ("\"" ++ s ++ "\" is not a valid email address") ≠
      "At least one participant email is required" := by
  intro h
  have hd := congrArg String.data h
  rw [String.data_append, String.data_append] at hd
  have h1 : String.data "\"" = ['"'] := rfl
  rw [h1, List.singleton_append, List.cons_append] at hd
  have h2 := congrArg List.head? hd
  have h3 : ("At least one participant email is required".data).head? = some 'A' := rfl
  rw [h3] at h2
  rw [List.head?_cons] at h2
  exact absurd h2 (by decide)

/-- C10: `validateEmails` can never produce the message "At least one
participant email is required", because JavaScript's split always yields
at least one entry; the empty input instead fails the per-entry email
check with the message naming the empty entry. -/
theorem validateEmails_never_requires :
    (∀ value : String,
      (validateEmails value == ValidationResult.err
        "At least one participant email is required") = false) ∧
    validateEmails "" = .err "\"\" is not a valid email address" := by
  constructor
  · intro value
    unfold validateEmails
    rw [if_neg (by
      intro hlen
      rw [List.length_map] at hlen
      exact jsSplitChar_ne_nil ',' value.toList (List.length_eq_zero.mp hlen))]
    cases hf : ((jsSplitChar ',' value.toList).map jsTrim).find?
        (fun e => !emailRegexTest e) with
    | none =>
      simp only []
      rfl
    | some e =>
      simp only [beq_eq_false_iff_ne, ne_eq, ValidationResult.err.injEq]
      exact quoted_message_ne (String.mk e)
  · rfl

/-- C6 counterexample: a requested duration of 1 minute — at least 1
minute, so the claim says it is accepted — is rejected by the form's
duration validation with the minimum-15 message. -/
theorem duration_one_rejected :
    (1 : Int) ≥ 1 ∧
    durationFieldError 1 = some "Duration must be at least 15 minutes" :=
  ⟨by decide, rfl⟩

/-- C6 (amended): the form's duration field accepts exactly the
durations between 15 and 480 minutes inclusive, and the spec-modelled
computation raises `invalidDuration` exactly when the requested duration
is ≤ 0 (that is, 0 as a minute count); in particular every duration the
form accepts also passes the computation's duration check. -/
theorem duration_validation_correct :
    (∀ d : Int, durationFieldError d = none ↔ 15 ≤ d ∧ d ≤ 480) ∧
    (∀ req : AvailabilityRequest,
      computeAvailability req = .error .invalidDuration ↔ req.duration = 0) := by
  constructor
  · intro d
    unfold durationFieldError
    by_cases h1 : d < 15
    · rw [if_pos h1]
      constructor
      · intro hc
        exact absurd hc (by simp)
      · intro hc
        omega
    · rw [if_neg h1]
      by_cases h2 : 480 < d
      · rw [if_pos h2]
        constructor
        · intro hc
          exact absurd hc (by simp)
        · intro hc
          omega
      · rw [if_neg h2]
        constructor
        · intro _
          omega
        · intro _
          rfl
  · intro req
    constructor
    · intro h
      by_cases hd : req.duration = 0
      · exact hd
      · unfold computeAvailability at h
        rw [if_neg hd] at h
        cases hv : validateAll req.participants with
        | ok cals =>
          rw [hv] at h
          exact absurd h (by simp)
        | error e =>
          rw [hv] at h
          simp only [Except.error.injEq] at h
          obtain ⟨pid, i, hi⟩ := validateAll_error_shape hv
          rw [hi] at h
          exact absurd h (by simp)
    · intro h
      unfold computeAvailability
      rw [if_pos h]

/-- C6 amended witness: duration 60 is accepted by the form, duration
481 is not, and a request with duration 0 raises `invalidDuration` while
the same request with duration 60 does not. -/
theorem duration_validation_correct_witness :
    durationFieldError 60 = none ∧
    ¬ durationFieldError 481 = none ∧
    computeAvailability ⟨[], ⟨0, 1440⟩, 0⟩ = .error .invalidDuration ∧
    ¬ computeAvailability ⟨[], ⟨0, 1440⟩, 60⟩ = .error .invalidDuration :=
  ⟨(duration_validation_correct.1 60).mpr (by decide),
    fun hc => by
      have := (duration_validation_correct.1 481).mp hc
      omega,
    (duration_validation_correct.2 ⟨[], ⟨0, 1440⟩, 0⟩).mpr rfl,
    fun hc => by
      have := (duration_validation_correct.2 ⟨[], ⟨0, 1440⟩, 60⟩).mp hc
      exact absurd this (by decide)⟩

end Slotly
